import Mathlib

/-!
Verification of the meshgame hostless lockstep ordering core.

This file gives a shallow embedding, in Lean 4, of the parts of the source
that the specification claims talk about:

* the binary wire codec (`encodeMessage` / `decodeMessage` in
  `net/signaled-mesh-webrtc-transport.ts`), together with a concrete model
  of the platform UTF-8 text encoder/decoder;
* the action-log stores (`MemoryLogStore` and `IndexedDbLogStore`);
* the `GameNode` commit queue (`node/game-node.ts`);
* the scheduler catch-up loop (`GameNode.applySchedulersCatchUp` and
  `engine/scheduler.ts`);
* the `LockstepOrdering` state machine
  (`ordering/lockstep-ordering.ts`).

Modelling conventions:

* JS numbers holding ticks or milliseconds are modelled as `Int`
  (ticks can be `-1`); per-tick sequence numbers and log heights are `Nat`;
  seal `lastSeq` values are `Int` (they can be `-1`).
* JS `Map`s are modelled as functions into `Option`, JS arrays as `List`s.
* Action payloads (`unknown` in TS) are opaque to all the code under
  study; they are modelled by `Nat`.
* Fallible code returns `Option` / `Except`.
-/

namespace Meshgame

/-! ## Wire codec (`protocol/codec.ts` body living in
`net/signaled-mesh-webrtc-transport.ts`)

The source calls the platform `TextEncoder` / `TextDecoder`.  We model the
topic string as its list of Unicode code points and give a concrete UTF-8
encoder, following the standard encoding the platform implements.  The
platform decoder is modelled strictly (returning `none` on malformed
bytes); on well-formed encodings—the only inputs the claims touch—this
agrees with `TextDecoder`. -/

/-- UTF-8 encoding of a single Unicode code point (standard 1–4 byte form). -/
def utf8EncodeChar (c : Nat) : List Nat :=
  if c < 0x80 then [c]
  else if c < 0x800 then [0xC0 + c / 64, 0x80 + c % 64]
  else if c < 0x10000 then [0xE0 + c / 4096, 0x80 + c / 64 % 64, 0x80 + c % 64]
  else [0xF0 + c / 262144, 0x80 + c / 4096 % 64, 0x80 + c / 64 % 64, 0x80 + c % 64]

/-- UTF-8 encoding of a code-point sequence (model of `TextEncoder.encode`). -/
def utf8Encode (cps : List Nat) : List Nat :=
  (cps.map utf8EncodeChar).flatten

/-- Is `b` a UTF-8 continuation byte? -/
def isCont (b : Nat) : Bool :=
  decide (0x80 ≤ b) && decide (b < 0xC0)

/-- Decode one UTF-8 encoded code point from the front of a byte list,
returning it with the remaining bytes. -/
def utf8DecodeChar1 : List Nat → Option (Nat × List Nat)
  | [] => none
  | b :: rest =>
    if b < 0x80 then some (b, rest)
    else if b < 0xC0 then none
    else if b < 0xE0 then
      match rest with
      | b1 :: r =>
        if isCont b1 then some ((b - 0xC0) * 64 + (b1 - 0x80), r) else none
      | [] => none
    else if b < 0xF0 then
      match rest with
      | b1 :: b2 :: r =>
        if isCont b1 && isCont b2 then
          some ((b - 0xE0) * 4096 + (b1 - 0x80) * 64 + (b2 - 0x80), r)
        else none
      | _ => none
    else if b < 0xF8 then
      match rest with
      | b1 :: b2 :: b3 :: r =>
        if isCont b1 && isCont b2 && isCont b3 then
          some ((b - 0xF0) * 262144 + (b1 - 0x80) * 4096 + (b2 - 0x80) * 64 + (b3 - 0x80), r)
        else none
      | _ => none
    else none

/-- Fuel-driven UTF-8 decode loop; the fuel bounds the number of decoded
code points. -/
def utf8DecodeLoop : Nat → List Nat → Option (List Nat)
  | _, [] => some []
  | 0, _ :: _ => none
  | fuel + 1, b :: rest =>
    match utf8DecodeChar1 (b :: rest) with
    | some (c, r) => (utf8DecodeLoop fuel r).map (c :: ·)
    | none => none

/-- UTF-8 decoding back to code points (model of `TextDecoder.decode`,
strict variant: malformed bytes fail instead of becoming U+FFFD). -/
def utf8Decode (l : List Nat) : Option (List Nat) :=
  utf8DecodeLoop l.length l

/-- A Unicode scalar value: a code point that is not a surrogate.  A
well-formed JS string is a sequence of scalar values; `TextEncoder`
replaces lone surrogates, so the codec model is faithful exactly on
scalar-valued topics. -/
def IsScalar (c : Nat) : Prop :=
  c < 0x110000 ∧ ¬(0xD800 ≤ c ∧ c ≤ 0xDFFF)

instance (c : Nat) : Decidable (IsScalar c) := by
  unfold IsScalar; infer_instance

/-- Model of `TransportMessage`: `topic` as Unicode code points, `payload`
as raw bytes. -/
structure TransportMsg where
  topic : List Nat
  payload : List Nat
deriving DecidableEq, Repr

/-- Model of `encodeMessage`: length-prefixed binary frame
`[topicLen lo, topicLen hi] ++ topicBytes ++ payload`; topics over
65535 UTF-8 bytes are a hard encode failure (the source throws
`RangeError`). -/
def encodeMessage (msg : TransportMsg) : Option (List Nat) :=
  let topicBytes := utf8Encode msg.topic
  if topicBytes.length > 0xFFFF then none
  else
    some (topicBytes.length % 256 :: topicBytes.length / 256 % 256 ::
      (topicBytes ++ msg.payload))

/-- Model of `decodeMessage`: reads the little-endian u16 topic length,
splits topic bytes from payload; fails on frames shorter than the header
or than the declared topic length. -/
def decodeMessage (bytes : List Nat) : Option TransportMsg :=
  match bytes with
  | b0 :: b1 :: rest =>
    let topicLen := b0 + b1 * 256
    if rest.length < topicLen then none
    else
      match utf8Decode (rest.take topicLen) with
      | some topic => some ⟨topic, rest.drop topicLen⟩
      | none => none
  | _ => none

/-! ## Action log (`log/memory-log-store.ts`, `log/indexed-db-log-store.ts`)

`Commit` follows `log/types.ts`: `seq` is the 1-based log height,
`metadata.orderingTick` is flattened into a field. -/

/-- Model of `SignedAction` (`log/types.ts`); the payload is opaque. -/
structure SAction where
  peerId : String
  payload : Nat
deriving DecidableEq, Repr

/-- Model of `Commit` (`log/types.ts`): `seq` is the 1-based height,
`metadata.orderingTick` is inlined. -/
structure Commit where
  seq : Nat
  actions : List SAction
  orderingTick : Int
deriving DecidableEq, Repr

/-- Model of `MemoryLogStore.latestHeight`: number of stored commits. -/
def memLatestHeight (commits : List Commit) : Nat :=
  commits.length

/-- Model of `MemoryLogStore.append`: throws on a height (seq) mismatch,
otherwise pushes the commit. -/
def memAppend (commits : List Commit) (c : Commit) : Except String (List Commit) :=
  if c.seq ≠ memLatestHeight commits + 1 then
    Except.error "MemoryLogStore: Sequence mismatch"
  else
    Except.ok (commits ++ [c])

/-- Gap-freeness of a log: the stored heights are exactly 1, 2, …, n. -/
def GapFree (commits : List Commit) : Prop :=
  commits.map Commit.seq = List.range' 1 commits.length

/-- Model of the IndexedDB object store keyed by `seq`: `put` upserts,
replacing any record with the same key. -/
def idbPut (store : List Commit) (c : Commit) : List Commit :=
  store.filter (fun x => x.seq ≠ c.seq) ++ [c]

/-- Model of `IndexedDbLogStore.latestHeight`: the largest stored key, or
0 when the store is empty. -/
def idbLatestHeight (store : List Commit) : Nat :=
  (store.map Commit.seq).foldr max 0

/-- Model of `IndexedDbLogStore.append`: no height check at all—the
source comments the check away ("let's keep it simple") and directly
`put`s the commit.  Platform I/O failures are outside the model. -/
def idbAppend (store : List Commit) (c : Commit) : Except String (List Commit) :=
  Except.ok (idbPut store c)

/-! ## Lockstep ordering (`ordering/lockstep-ordering.ts`)

The `LockstepOrdering` class is modelled as a pure state machine: each
entry point returns the new state together with the broadcast messages
and the commits delivered to `onCommit` subscribers during the call.
`Date.now()` reads inside handlers become explicit `nowMs` parameters of
the corresponding event.  Membership follows `BasicMembership`
(`membership/basic-membership`): `getPeers()` lists the local peer first;
the `peers` field holds that list. -/

/-- Decoded node-protocol messages (`protocol/types.ts`).  The per-action
`seq` echoed inside `ACTION_COMMIT` gossip is always `-1` in the source
and is dropped here. -/
inductive NodeMsg where
  | propose (roomId peerId : String) (tick : Int) (seq : Nat) (payload : Nat)
  | sealMsg (roomId peerId : String) (tick : Int) (lastSeq : Int)
  | commitMsg (roomId : String) (tick : Int) (height : Nat) (actions : List SAction)
  | syncClock (roomId peerId : String) (tick : Int)
deriving DecidableEq, Repr

/-- Session configuration of `LockstepOrdering` (`t0Ms` is mutable via
clock warp, so it lives inside the state). -/
structure OrderingConfig where
  t0Ms : Int
  tickMs : Int
  inputDelayTicks : Int
  roomId : String
deriving DecidableEq, Repr

/-- The mutable fields of a `LockstepOrdering` instance. -/
structure OState where
  cfg : OrderingConfig
  selfId : String
  buffer : Int → String → List (Nat × SAction)
  seals : Int → String → Option Int
  currentTick : Int
  committedTick : Int
  committedHeight : Nat
  localSeqByTick : Int → Option Nat
  sealedTicks : Int → Bool
  peerFirstTick : String → Option Int
  peers : List String

/-- Model of `LockstepOrdering.computeTick`: clamps negative elapsed time
to tick 0, otherwise floor-divides by the tick length. -/
def computeTick (cfg : OrderingConfig) (nowMs : Int) : Int :=
  let dt := nowMs - cfg.t0Ms
  if dt < 0 then 0 else dt / cfg.tickMs

/-- Model of `LockstepOrdering.putAction`: drop duplicate `(tick, author,
seq)` entries, otherwise push in arrival order. -/
def putAction (s : OState) (tick : Int) (author : String) (seq : Nat) (a : SAction) : OState :=
  let arr := s.buffer tick author
  if arr.any (fun x => x.1 == seq) then s
  else
    { s with buffer := fun t2 a2 =>
        if t2 = tick ∧ a2 = author then arr ++ [(seq, a)] else s.buffer t2 a2 }

/-- Model of `LockstepOrdering.putSeal`. -/
def putSeal (s : OState) (tick : Int) (author : String) (lastSeq : Int) : OState :=
  { s with seals := fun t2 a2 =>
      if t2 = tick ∧ a2 = author then some lastSeq else s.seals t2 a2 }

/-- Highest local `seq` for a tick, or `-1` when no local actions exist
(the `Math.max` step of `sealTickIfNeeded`). -/
def lastSeqOf (arr : List (Nat × SAction)) : Int :=
  if arr.isEmpty then -1 else (arr.map (fun x => (x.1 : Int))).foldl max (-1)

/-- Model of `LockstepOrdering.sealTickIfNeeded`: mark the tick sealed,
record the local seal synchronously, then broadcast `ACTION_SEAL`. -/
def sealTickIfNeeded (s : OState) (tick : Int) : OState × List NodeMsg :=
  if tick ≤ s.committedTick then (s, [])
  else if s.sealedTicks tick then (s, [])
  else
    let s1 := { s with sealedTicks := fun t2 => if t2 = tick then true else s.sealedTicks t2 }
    let lastSeq := lastSeqOf (s1.buffer tick s1.selfId)
    let s2 := putSeal s1 tick s1.selfId lastSeq
    (s2, [NodeMsg.sealMsg s2.cfg.roomId s2.selfId tick lastSeq])

/-- The peer list used by the barrier and by commits: `getPeers()` plus
the local peer if absent. -/
def getPeersWithSelf (s : OState) : List String :=
  if s.selfId ∈ s.peers then s.peers else s.peers ++ [s.selfId]

/-- A peer's first eligible tick, defaulting to 0 when unknown
(`this.peerFirstTick.get(p) ?? 0`). -/
def firstTickOf (s : OState) (p : String) : Int :=
  (s.peerFirstTick p).getD 0

/-- Model of `LockstepOrdering.canCommitTick`: every peer that is
eligible for the tick (`firstEligibleTick ≤ tick`) must have a recorded
seal. -/
def canCommitTick (s : OState) (tick : Int) : Bool :=
  (getPeersWithSelf s).all fun p =>
    decide (tick < firstTickOf s p) || (s.seals tick p).isSome

/-- Proposals of one author sorted ascending by `seq`
(`arr.sort((a, b) => a.seq - b.seq)`). -/
def sortBySeq (arr : List (Nat × SAction)) : List (Nat × SAction) :=
  List.insertionSort (fun a b => a.1 ≤ b.1) arr

/-- Peer ids sorted by the JS default string comparator (lexicographic
code-unit order, which agrees with `String` order on these ids). -/
def sortPeers (ps : List String) : List String :=
  List.insertionSort (fun a b : String => a ≤ b) ps

/-- The action flattening of `commitTick`: authors in sorted order,
late-joining authors skipped, each author's proposals sorted by `seq`. -/
def commitActions (s : OState) (tick : Int) : List SAction :=
  (sortPeers (getPeersWithSelf s)).foldl
    (fun acc author =>
      if tick < firstTickOf s author then acc
      else acc ++ (sortBySeq (s.buffer tick author)).map (fun x => x.2))
    []

/-- Result of one `commitTick` call: next state, the emitted commit, the
gossiped `ACTION_COMMIT`. -/
structure CommitOut where
  state : OState
  commit : Commit
  msg : NodeMsg

/-- Model of `LockstepOrdering.commitTick`: build the deterministic
action list, bump the height, emit, then garbage-collect the tick's
buffers. -/
def commitTick (s : OState) (tick : Int) : CommitOut :=
  let actions := commitActions s tick
  let height := s.committedHeight + 1
  let commit : Commit := ⟨height, actions, tick⟩
  let msg := NodeMsg.commitMsg s.cfg.roomId tick height actions
  let s1 := { s with
    committedHeight := height,
    buffer := fun t2 a2 => if t2 = tick then [] else s.buffer t2 a2,
    seals := fun t2 a2 => if t2 = tick then none else s.seals t2 a2,
    localSeqByTick := fun t2 => if t2 = tick then none else s.localSeqByTick t2 }
  ⟨s1, commit, msg⟩

/-- Model of `LockstepOrdering.maxCommittableTick`. -/
def maxCommittableTick (s : OState) : Int :=
  s.currentTick - 1 + s.cfg.inputDelayTicks

/-- Overwrite the committed-tick bookkeeping field (the
`this.committedTick = t` assignment of the commit loop). -/
def withCommittedTick (s : OState) (t : Int) : OState :=
  { s with committedTick := t }

/-- Result of one entry-point call: next state, broadcasts, commits
delivered to `onCommit` subscribers, in order. -/
structure StepOut where
  state : OState
  outbound : List NodeMsg
  commits : List Commit

/-- The committed loop body of `tryCommitUpTo`: commit `committedTick + 1`
while the barrier allows, stopping at the first non-committable tick.
The fuel is the remaining number of loop iterations. -/
def tryCommitLoop : Nat → OState → StepOut
  | 0, s => ⟨s, [], []⟩
  | fuel + 1, s =>
    let t := s.committedTick + 1
    if canCommitTick s t then
      let co := commitTick s t
      let s2 := withCommittedTick co.state t
      let rest := tryCommitLoop fuel s2
      ⟨rest.state, co.msg :: rest.outbound, co.commit :: rest.commits⟩
    else ⟨s, [], []⟩

/-- Model of `LockstepOrdering.tryCommitUpTo`. -/
def tryCommitUpTo (s : OState) (maxTick : Int) : StepOut :=
  tryCommitLoop (maxTick - s.committedTick).toNat s

/-- Model of `LockstepOrdering.onLocalAction`: compute the target tick;
drop silently if it is already committed; otherwise take the next local
seq, store the action locally and broadcast `ACTION_PROPOSE`. -/
def onLocalAction (s : OState) (payload : Nat) (nowMs : Int) : StepOut :=
  let nowTick := computeTick s.cfg nowMs
  let targetTick := nowTick + s.cfg.inputDelayTicks
  if targetTick ≤ s.committedTick then ⟨s, [], []⟩
  else
    let seq := (s.localSeqByTick targetTick).getD 0
    let s1 := { s with localSeqByTick := fun t2 =>
      if t2 = targetTick then some (seq + 1) else s.localSeqByTick t2 }
    let s2 := putAction s1 targetTick s1.selfId seq ⟨s1.selfId, payload⟩
    ⟨s2, [NodeMsg.propose s.cfg.roomId s.selfId targetTick seq payload], []⟩

/-- The tick-advance loop of `LockstepOrdering.tick`: advance one tick at
a time, sealing each tick boundary's horizon. -/
def tickAdvanceLoop : Nat → OState → OState × List NodeMsg
  | 0, s => (s, [])
  | fuel + 1, s =>
    let t := s.currentTick + 1
    let s1 := { s with currentTick := t }
    let toSeal := t - 1 + s1.cfg.inputDelayTicks
    let r1 := if 0 ≤ t - 1 then sealTickIfNeeded s1 toSeal else (s1, [])
    let r2 := tickAdvanceLoop fuel r1.1
    (r2.1, r1.2 ++ r2.2)

/-- Model of `LockstepOrdering.tick`: initial warp on the first call,
no clock advance otherwise still attempts commits, clock advance seals
each boundary then attempts commits. -/
def tick (s : OState) (nowMs : Int) : StepOut :=
  let newTick := computeTick s.cfg nowMs
  if s.currentTick = -1 then
    let s1 := { s with currentTick := newTick }
    let toSeal := s1.currentTick - 1 + s1.cfg.inputDelayTicks
    let r1 := if 0 ≤ toSeal then sealTickIfNeeded s1 toSeal else (s1, [])
    let s3 := withCommittedTick r1.1 (max r1.1.committedTick (toSeal - 1))
    let r := tryCommitUpTo s3 (maxCommittableTick s3)
    ⟨r.state, r1.2 ++ r.outbound, r.commits⟩
  else if newTick ≤ s.currentTick then
    tryCommitUpTo s (maxCommittableTick s)
  else
    let r1 := tickAdvanceLoop (newTick - s.currentTick).toNat s
    let r := tryCommitUpTo r1.1 (maxCommittableTick r1.1)
    ⟨r.state, r1.2 ++ r.outbound, r.commits⟩

/-- The clock warp of the `SYNC_CLOCK` handler: shift `t0Ms` so the
local clock reads the remote tick, jump `currentTick` there, and lift
every recorded `firstEligibleTick` to at least `currentTick +
inputDelayTicks`. -/
def warpState (s : OState) (tk nowMs : Int) : OState :=
  { s with
    cfg := { s.cfg with t0Ms := nowMs - tk * s.cfg.tickMs },
    currentTick := tk,
    peerFirstTick :=
      (fun p => Option.map (fun ft => max ft (tk + s.cfg.inputDelayTicks)) (s.peerFirstTick p)) }

/-- The `SYNC_CLOCK` warp's seal loop: seal every tick from 0 up to the
new horizon. -/
def sealRangeLoop : Nat → Int → OState → OState × List NodeMsg
  | 0, _, s => (s, [])
  | fuel + 1, t, s =>
    let r1 := sealTickIfNeeded s t
    let r2 := sealRangeLoop fuel (t + 1) r1.1
    (r2.1, r1.2 ++ r2.2)

/-- Model of `LockstepOrdering.handleMessage` (topic `"node"` messages
after decode); `nowMs` stands for the `Date.now()` reads in the
`SYNC_CLOCK` arm. -/
def handleMessage (s : OState) (fromPeerId : String) (msg : NodeMsg) (nowMs : Int) : StepOut :=
  match msg with
  | .propose roomId peerId tick seq payload =>
    if roomId ≠ s.cfg.roomId then ⟨s, [], []⟩
    else if peerId ≠ fromPeerId then ⟨s, [], []⟩
    else if tick ≤ s.committedTick then ⟨s, [], []⟩
    else ⟨putAction s tick peerId seq ⟨peerId, payload⟩, [], []⟩
  | .sealMsg roomId peerId tick lastSeq =>
    if roomId ≠ s.cfg.roomId then ⟨s, [], []⟩
    else if peerId ≠ fromPeerId then ⟨s, [], []⟩
    else if tick ≤ s.committedTick then ⟨s, [], []⟩
    else
      let s1 := putSeal s tick peerId lastSeq
      tryCommitUpTo s1 (s1.currentTick - s1.cfg.inputDelayTicks)
  | .commitMsg _ _ _ _ => ⟨s, [], []⟩
  | .syncClock roomId peerId tk =>
    if roomId ≠ s.cfg.roomId then ⟨s, [], []⟩
    else if peerId = s.selfId then ⟨s, [], []⟩
    else
      let localTick := computeTick s.cfg nowMs
      if tk > localTick then
        let s2 := warpState s tk nowMs
        let newestSeal := s2.currentTick - 1 + s2.cfg.inputDelayTicks
        let r1 := sealRangeLoop (newestSeal + 1).toNat 0 s2
        let r := tryCommitUpTo r1.1 (maxCommittableTick r1.1)
        ⟨r.state, r1.2 ++ r.outbound, r.commits⟩
      else ⟨s, [], []⟩

/-- Transport peer events. -/
inductive PeerEv where
  | connected (peerId : String)
  | disconnected (peerId : String)
deriving DecidableEq, Repr

/-- Model of `LockstepOrdering.handlePeerEvent` over `BasicMembership`:
on connect, record the peer's first eligible tick, add it to membership
if unknown, and (after a settle delay, modelled as immediate) unicast a
`SYNC_CLOCK`; on disconnect, drop it from membership and eligibility. -/
def handlePeerEvent (s : OState) (ev : PeerEv) (nowMs : Int) : StepOut :=
  match ev with
  | .connected p =>
    let currentTickNow := computeTick s.cfg nowMs
    let effectiveTick := currentTickNow + s.cfg.inputDelayTicks
    let s1 := { s with peerFirstTick := fun q =>
      if q = p then some effectiveTick else s.peerFirstTick q }
    let s2 := if p = s1.selfId ∨ p ∈ s1.peers then s1 else { s1 with peers := s1.peers ++ [p] }
    ⟨s2, [NodeMsg.syncClock s2.cfg.roomId s2.selfId currentTickNow], []⟩
  | .disconnected p =>
    let s1 := { s with
      peers := if p = s.selfId then s.peers else s.peers.erase p,
      peerFirstTick := fun q => if q = p then none else s.peerFirstTick q }
    ⟨s1, [], []⟩

/-- The constructor state of `LockstepOrdering`: `committedTick` starts
at `inputDelayTicks - 1`, the rest empty. -/
def initState (cfg : OrderingConfig) (selfId : String) (peers0 : List String) : OState where
  cfg := cfg
  selfId := selfId
  buffer := fun _ _ => []
  seals := fun _ _ => none
  currentTick := -1
  committedTick := cfg.inputDelayTicks - 1
  committedHeight := 0
  localSeqByTick := fun _ => none
  sealedTicks := fun _ => false
  peerFirstTick := fun _ => none
  peers := peers0

/-- One external event driving a `LockstepOrdering` instance. -/
inductive OEvent where
  | localAction (payload : Nat) (nowMs : Int)
  | clockTick (nowMs : Int)
  | recv (fromPeerId : String) (msg : NodeMsg) (nowMs : Int)
  | peer (ev : PeerEv) (nowMs : Int)

/-- Dispatch one event to the corresponding entry point. -/
def step (s : OState) (e : OEvent) : StepOut :=
  match e with
  | .localAction payload nowMs => onLocalAction s payload nowMs
  | .clockTick nowMs => tick s nowMs
  | .recv f m nowMs => handleMessage s f m nowMs
  | .peer ev nowMs => handlePeerEvent s ev nowMs

/-- Run a list of events, collecting every commit delivered to
subscribers, in delivery order. -/
def run (s : OState) : List OEvent → OState × List Commit
  | [] => (s, [])
  | e :: es =>
    let o := step s e
    let r := run o.state es
    (r.1, o.commits ++ r.2)


/-! ## GameNode commit queue (`node/game-node.ts`, onCommit handler)

The serialized commit queue appends each commit to the log and, on
success, runs the post-commit pipeline (reduce, scheduler catch-up,
pending reconciliation, notification — abstracted into `applyCommit`).
The source wraps the whole pipeline in `try/catch`; a failure logs
`"Failed to process commit"` and the queue continues with the next
commit. -/

/-- Model of the `GameNode` commit queue: fold the queued commits over
the (memory) log and the abstract engine state; a failed append leaves
both unchanged and moves on to the next queued commit. -/
def gameNodeProcessQueue {S : Type} (applyCommit : S → Commit → S)
    (queue : List Commit) (log : List Commit) (st : S) : List Commit × S :=
  queue.foldl
    (fun acc c =>
      match memAppend acc.1 c with
      | Except.ok log2 => (log2, applyCommit acc.2 c)
      | Except.error _ => acc)
    (log, st)

/-! ## Schedulers (`engine/scheduler.ts`, `GameNode.applySchedulersCatchUp`) -/

/-- Model of `Meta` as built by the scheduler catch-up loop
(`{ orderingTick: t, from: this.playerId }`); `src` is the `from`
field. -/
structure SchedMeta where
  src : String
  orderingTick : Int
deriving DecidableEq, Repr

/-- Model of `Schedule` (`engine/scheduler.ts`): a discriminated union
`every | once | manual`. -/
inductive Schedule (S : Type) where
  | every (everyTicks : Int) (startTick : Option Int) (except : Option (S → SchedMeta → Bool))
  | once (atTick : Int) (except : Option (S → SchedMeta → Bool))
  | manual (shouldRun : S → SchedMeta → Bool)

/-- Model of `isDue` (`engine/scheduler.ts`): the `except` guard runs
first; `every` fires when `orderingTick ≥ start` and
`(orderingTick − start) % everyTicks = 0`; `once` fires at its tick;
`manual` delegates. -/
def isDue {S : Type} (schedule : Schedule S) (state : S) (meta : SchedMeta) : Bool :=
  match schedule with
  | .every everyTicks startTick ex =>
    if (ex.map (fun f => f state meta)).getD false then false
    else
      let start := startTick.getD 0
      if meta.orderingTick < start then false
      else decide ((meta.orderingTick - start) % everyTicks = 0)
  | .once atTick ex =>
    if (ex.map (fun f => f state meta)).getD false then false
    else decide (meta.orderingTick = atTick)
  | .manual shouldRun => shouldRun state meta

/-- Model of a registered `Scheduler`. -/
structure SchedulerM (S : Type) where
  id : String
  schedule : S → Option (Schedule S)
  apply : S → SchedMeta → Option S

/-- The ticks visited by the catch-up loop: the integers of the
half-open interval `(lastTick, committedTick]`, in increasing order. -/
def ticksIn (lastTick committedTick : Int) : List Int :=
  (List.range (committedTick - lastTick).toNat).map (fun i => lastTick + 1 + i)

/-- The inner loop of `applySchedulersCatchUp` at a single tick:
schedulers in registration (array) order; a `null` schedule or a
non-due schedule is skipped; `apply` returning `null` leaves the state
unchanged. -/
def runSchedulersAtTick {S : Type} (schedulers : List (SchedulerM S)) (playerId : String)
    (t : Int) (s : S) : S :=
  schedulers.foldl
    (fun s sch =>
      match sch.schedule s with
      | none => s
      | some schedule =>
        if isDue schedule s ⟨playerId, t⟩ then
          match sch.apply s ⟨playerId, t⟩ with
          | some next => next
          | none => s
        else s)
    s

/-- Model of `GameNode.applySchedulersCatchUp`: the early return when no
schedulers are registered, otherwise the tick loop; both update
`lastSchedulerCommittedTick` to `max lastTick committedTick` (returned
as the second component). -/
def applySchedulersCatchUp {S : Type} (schedulers : List (SchedulerM S)) (playerId : String)
    (lastTick committedTick : Int) (state : S) : S × Int :=
  if schedulers.isEmpty then (state, max lastTick committedTick)
  else
    ((ticksIn lastTick committedTick).foldl
      (fun s t => runSchedulersAtTick schedulers playerId t s) state,
     max lastTick committedTick)

/-- Catch-up loop as the specification words it, parameterized by the
scheduler visit order: for each tick of `(lastTick, committedTick]` in
increasing order, for each scheduler in the given order, execute
`apply` when the schedule exists and `isDue` holds. -/
def catchUpSpec {S : Type} (order : List (SchedulerM S)) (playerId : String)
    (lastTick committedTick : Int) (state : S) : S :=
  (ticksIn lastTick committedTick).foldl
    (fun s t =>
      order.foldl
        (fun s sch =>
          match sch.schedule s with
          | none => s
          | some schedule =>
            if isDue schedule s ⟨playerId, t⟩ then (sch.apply s ⟨playerId, t⟩).getD s else s)
        s)
    state

instance {S : Type} : DecidableRel (fun a b : SchedulerM S => a.id ≤ b.id) :=
  fun a b => inferInstanceAs (Decidable (a.id ≤ b.id))

/-- Schedulers sorted by `id` in lexicographic order. -/
def sortSchedulersById {S : Type} (l : List (SchedulerM S)) : List (SchedulerM S) :=
  List.insertionSort (fun a b => a.id ≤ b.id) l

/-- The claimed catch-up semantics: schedulers visited sorted by `id`
(lexicographic), independent of registration order. -/
def catchUpSpecSortedById {S : Type} (schedulers : List (SchedulerM S)) (playerId : String)
    (lastTick committedTick : Int) (state : S) : S :=
  catchUpSpec (sortSchedulersById schedulers) playerId lastTick committedTick state

/-! ## Specification-side definitions for the ordering claims -/

/-- The commit action vector as the specification words it: eligible
peers (membership plus self, `firstEligibleTick ≤ tick`) in ascending
lexicographic order, each contributing its proposals sorted by `seq`. -/
def specCommitActions (s : OState) (tick : Int) : List SAction :=
  ((sortPeers ((getPeersWithSelf s).filter (fun p => decide (firstTickOf s p ≤ tick)))).map
    (fun author => (sortBySeq (s.buffer tick author)).map (fun x => x.2))).flatten

/-- A commit trace is gap-free relative to a starting tick bound and
height: heights are consecutive from `h + 1`, ordering ticks strictly
increase and stay above the bound. -/
def chainOK : Int → Nat → List Commit → Prop
  | _, _, [] => True
  | lastT, h, c :: cs => c.seq = h + 1 ∧ lastT < c.orderingTick ∧ chainOK c.orderingTick (h + 1) cs

/-- The barrier condition of claim C3: every peer of the current
membership set plus the local peer whose first eligible tick is at most
`t` has a recorded seal for `t`. -/
def eligibleSealed (s : OState) (t : Int) : Prop :=
  ∀ p ∈ getPeersWithSelf s, firstTickOf s p ≤ t → (s.seals t p).isSome

/-! ## Concrete sample states and schedulers used by witnesses -/

/-- A one-peer state in which tick 1 is fully sealed and committable. -/
def sampleSealed : OState where
  cfg := ⟨0, 100, 1, "R"⟩
  selfId := "A"
  buffer := fun _ _ => []
  seals := fun t2 a2 => if t2 = 1 ∧ a2 = "A" then some (-1) else none
  currentTick := 1
  committedTick := 0
  committedHeight := 0
  localSeqByTick := fun _ => none
  sealedTicks := fun t2 => decide (t2 = 1)
  peerFirstTick := fun _ => none
  peers := ["A"]

/-- A state whose committed tick is far ahead, so fresh local actions
fall inside the committed horizon and are dropped. -/
def sampleDrop : OState where
  cfg := ⟨0, 100, 1, "R"⟩
  selfId := "A"
  buffer := fun _ _ => []
  seals := fun _ _ => none
  currentTick := 5
  committedTick := 10
  committedHeight := 3
  localSeqByTick := fun _ => none
  sealedTicks := fun _ => false
  peerFirstTick := fun _ => none
  peers := ["A"]

/-- A scheduler with id `"a"` that always runs and appends `"a"`. -/
def schedA : SchedulerM (List String) where
  id := "a"
  schedule := fun _ => some (Schedule.manual fun _ _ => true)
  apply := fun s _ => some (s ++ ["a"])

/-- A scheduler with id `"b"` that always runs and appends `"b"`. -/
def schedB : SchedulerM (List String) where
  id := "b"
  schedule := fun _ => some (Schedule.manual fun _ _ => true)
  apply := fun s _ => some (s ++ ["b"])

/-! ## Codec round-trip lemmas -/

/-- A successful single-char decode consumes at least one byte. -/
theorem utf8DecodeChar1_length {l : List Nat} {c : Nat} {r : List Nat}
    (h : utf8DecodeChar1 l = some (c, r)) : r.length < l.length := by
  match l with
  | [] => simp [utf8DecodeChar1] at h
  | b :: rest =>
    simp only [utf8DecodeChar1] at h
    split_ifs at h with h1 h2 h3 h4 h5
    · simp only [Option.some.injEq, Prod.mk.injEq] at h
      obtain ⟨-, rfl⟩ := h
      simp
    · split at h
      · split_ifs at h
        simp only [Option.some.injEq, Prod.mk.injEq] at h
        obtain ⟨-, rfl⟩ := h
        simp only [List.length_cons]
        omega
      · cases h
    · split at h
      · split_ifs at h
        simp only [Option.some.injEq, Prod.mk.injEq] at h
        obtain ⟨-, rfl⟩ := h
        simp only [List.length_cons]
        omega
      · cases h
    · split at h
      · split_ifs at h
        simp only [Option.some.injEq, Prod.mk.injEq] at h
        obtain ⟨-, rfl⟩ := h
        simp only [List.length_cons]
        omega
      · cases h

/-- The decode loop does not depend on the fuel once the fuel covers the
byte count. -/
theorem utf8DecodeLoop_congr :
    ∀ (f1 f2 : Nat) (l : List Nat), l.length ≤ f1 → l.length ≤ f2 →
      utf8DecodeLoop f1 l = utf8DecodeLoop f2 l := by
  intro f1
  induction f1 with
  | zero =>
    intro f2 l h1 _
    match l with
    | [] => cases f2 <;> rfl
    | b :: rest => simp at h1
  | succ f1 ih =>
    intro f2 l h1 h2
    match l with
    | [] => cases f2 <;> rfl
    | b :: rest =>
      match f2 with
      | 0 => simp at h2
      | f2 + 1 =>
        show (match utf8DecodeChar1 (b :: rest) with
          | some (c, r) => (utf8DecodeLoop f1 r).map (c :: ·)
          | none => none) =
          (match utf8DecodeChar1 (b :: rest) with
          | some (c, r) => (utf8DecodeLoop f2 r).map (c :: ·)
          | none => none)
        cases hd : utf8DecodeChar1 (b :: rest) with
        | none => rfl
        | some cr =>
          obtain ⟨c, r⟩ := cr
          have hlen := utf8DecodeChar1_length hd
          simp only [List.length_cons] at h1 h2 hlen
          simp only []
          rw [ih f2 r (by omega) (by omega)]

/-- Unfolding `utf8Decode` one decoded character at a time. -/
theorem utf8Decode_cons_of_char1 {l : List Nat} {c : Nat} {r : List Nat}
    (h : utf8DecodeChar1 l = some (c, r)) :
    utf8Decode l = (utf8Decode r).map (c :: ·) := by
  have hlen := utf8DecodeChar1_length h
  match l, hlen with
  | b :: rest, hlen =>
    show utf8DecodeLoop (b :: rest).length (b :: rest) = _
    rw [List.length_cons]
    show (match utf8DecodeChar1 (b :: rest) with
      | some (c, r) => (utf8DecodeLoop rest.length r).map (c :: ·)
      | none => none) = _
    rw [h]
    simp only []
    rw [utf8DecodeLoop_congr rest.length r.length r (by simp at hlen ⊢; omega) le_rfl]
    rfl

/-- Decoding a UTF-8 encoded code point consumes exactly its bytes. -/
theorem utf8DecodeChar1_encodeChar (c : Nat) (hc : c < 0x110000) (rest : List Nat) :
    utf8DecodeChar1 (utf8EncodeChar c ++ rest) = some (c, rest) := by
  unfold utf8EncodeChar
  by_cases h1 : c < 0x80
  · rw [if_pos h1]
    simp [utf8DecodeChar1, h1]
  · by_cases h2 : c < 0x800
    · have e1 : ¬(0xC0 + c / 64 < 0x80) := by omega
      have e2 : ¬(0xC0 + c / 64 < 0xC0) := by omega
      have e3 : 0xC0 + c / 64 < 0xE0 := by omega
      have e4 : isCont (0x80 + c % 64) = true := by
        simp only [isCont, Bool.and_eq_true, decide_eq_true_eq]
        omega
      have e5 : (0xC0 + c / 64 - 0xC0) * 64 + (0x80 + c % 64 - 0x80) = c := by omega
      rw [if_neg h1, if_pos h2]
      simp [utf8DecodeChar1, e1, e2, e3, e4, e5]
      omega
    · by_cases h3 : c < 0x10000
      · have e1 : ¬(0xE0 + c / 4096 < 0x80) := by omega
        have e2 : ¬(0xE0 + c / 4096 < 0xC0) := by omega
        have e3 : ¬(0xE0 + c / 4096 < 0xE0) := by omega
        have e4 : 0xE0 + c / 4096 < 0xF0 := by omega
        have e5 : isCont (0x80 + c / 64 % 64) = true := by
          simp only [isCont, Bool.and_eq_true, decide_eq_true_eq]
          omega
        have e6 : isCont (0x80 + c % 64) = true := by
          simp only [isCont, Bool.and_eq_true, decide_eq_true_eq]
          omega
        have e7 : (0xE0 + c / 4096 - 0xE0) * 4096 + (0x80 + c / 64 % 64 - 0x80) * 64 +
            (0x80 + c % 64 - 0x80) = c := by omega
        rw [if_neg h1, if_neg h2, if_pos h3]
        simp [utf8DecodeChar1, e1, e2, e3, e4, e5, e6, e7]
        omega
      · have e1 : ¬(0xF0 + c / 262144 < 0x80) := by omega
        have e2 : ¬(0xF0 + c / 262144 < 0xC0) := by omega
        have e3 : ¬(0xF0 + c / 262144 < 0xE0) := by omega
        have e4 : ¬(0xF0 + c / 262144 < 0xF0) := by omega
        have e5 : 0xF0 + c / 262144 < 0xF8 := by omega
        have e6 : isCont (0x80 + c / 4096 % 64) = true := by
          simp only [isCont, Bool.and_eq_true, decide_eq_true_eq]
          omega
        have e7 : isCont (0x80 + c / 64 % 64) = true := by
          simp only [isCont, Bool.and_eq_true, decide_eq_true_eq]
          omega
        have e8 : isCont (0x80 + c % 64) = true := by
          simp only [isCont, Bool.and_eq_true, decide_eq_true_eq]
          omega
        have e9 : (0xF0 + c / 262144 - 0xF0) * 262144 + (0x80 + c / 4096 % 64 - 0x80) * 4096 +
            (0x80 + c / 64 % 64 - 0x80) * 64 + (0x80 + c % 64 - 0x80) = c := by omega
        rw [if_neg h1, if_neg h2, if_neg h3]
        simp [utf8DecodeChar1, e1, e2, e3, e4, e5, e6, e7, e8, e9]
        omega

/-- Decoding an encoded code-point list followed by arbitrary bytes. -/
theorem utf8Decode_encode_append :
    ∀ (cps : List Nat), (∀ c ∈ cps, c < 0x110000) → ∀ (rest : List Nat),
      utf8Decode (utf8Encode cps ++ rest) = (utf8Decode rest).map (cps ++ ·) := by
  intro cps
  induction cps with
  | nil =>
    intro _ rest
    simp [utf8Encode]
  | cons c cs ih =>
    intro h rest
    have hc : c < 0x110000 := h c (by simp)
    have hcs : ∀ x ∈ cs, x < 0x110000 := fun x hx => h x (by simp [hx])
    simp only [utf8Encode, List.map_cons, List.flatten_cons, List.append_assoc]
    rw [utf8Decode_cons_of_char1
      (utf8DecodeChar1_encodeChar c hc ((cs.map utf8EncodeChar).flatten ++ rest))]
    have := ih hcs rest
    simp only [utf8Encode] at this
    rw [this]
    cases utf8Decode rest <;> simp

/-- UTF-8 round trip on code-point lists. -/
theorem utf8Decode_utf8Encode (cps : List Nat) (h : ∀ c ∈ cps, c < 0x110000) :
    utf8Decode (utf8Encode cps) = some cps := by
  have := utf8Decode_encode_append cps h []
  simpa [utf8Decode, utf8DecodeLoop] using this

/-- C9: for every `TransportMessage` whose topic encodes to at most 65535
UTF-8 bytes, `decodeMessage (encodeMessage msg) = msg` (same topic code
points and same payload bytes); for a topic whose UTF-8 encoding exceeds
65535 bytes, `encodeMessage` fails rather than producing a frame. -/
theorem encodeMessage_decodeMessage_roundtrip (msg : TransportMsg)
    (hval : ∀ c ∈ msg.topic, IsScalar c) :
    ((utf8Encode msg.topic).length ≤ 0xFFFF →
      ∃ frame, encodeMessage msg = some frame ∧ decodeMessage frame = some msg)
    ∧ (0xFFFF < (utf8Encode msg.topic).length → encodeMessage msg = none) := by
  constructor
  · intro hlen
    have hv : ∀ c ∈ msg.topic, c < 0x110000 := fun c hc => (hval c hc).1
    refine ⟨(utf8Encode msg.topic).length % 256 :: (utf8Encode msg.topic).length / 256 % 256 ::
      (utf8Encode msg.topic ++ msg.payload), ?_, ?_⟩
    · unfold encodeMessage
      rw [if_neg (by omega)]
    · unfold decodeMessage
      have hlen2 : (utf8Encode msg.topic).length % 256 +
          (utf8Encode msg.topic).length / 256 % 256 * 256 = (utf8Encode msg.topic).length := by
        omega
      simp only [hlen2]
      rw [if_neg (by simp)]
      rw [List.take_left, List.drop_left]
      rw [utf8Decode_utf8Encode msg.topic hv]
  · intro hlen
    unfold encodeMessage
    rw [if_pos (by omega)]

/-- Single-byte topics: the UTF-8 encoding of a run of `"a"` characters is
byte-for-byte the same run. -/
theorem utf8Encode_replicate_a (n : Nat) :
    utf8Encode (List.replicate n 97) = List.replicate n 97 := by
  induction n with
  | zero => rfl
  | succ n ih =>
    rw [List.replicate_succ]
    simp only [utf8Encode, List.map_cons, List.flatten_cons]
    have h97 : utf8EncodeChar 97 = [97] := rfl
    rw [h97]
    simp only [utf8Encode] at ih
    rw [ih, ← List.replicate_succ]
    rfl

/-- Witness for the codec round trip: a concrete 4-character topic round
trips, and a 70000-byte topic is an encode failure. -/
theorem encodeMessage_decodeMessage_roundtrip_witness :
    (∃ frame, encodeMessage ⟨[110, 111, 100, 101], [7, 8]⟩ = some frame ∧
      decodeMessage frame = some ⟨[110, 111, 100, 101], [7, 8]⟩)
    ∧ encodeMessage ⟨List.replicate 70000 97, []⟩ = none := by
  constructor
  · exact (encodeMessage_decodeMessage_roundtrip ⟨[110, 111, 100, 101], [7, 8]⟩
      (by decide)).1 (by decide)
  · refine (encodeMessage_decodeMessage_roundtrip ⟨List.replicate 70000 97, []⟩ ?_).2 ?_
    · intro c hc
      rw [List.eq_of_mem_replicate hc]
      decide
    · rw [utf8Encode_replicate_a, List.length_replicate]
      norm_num

/-! ## C1: deterministic commit order -/

/-- The skip-late fold of `commitTick` is the flattening over the
filtered author list. -/
theorem foldl_skip_late (s : OState) (t : Int) (f : String → List SAction) :
    ∀ (l : List String) (acc : List SAction),
      l.foldl (fun acc author => if t < firstTickOf s author then acc else acc ++ f author) acc
        = acc ++ ((l.filter (fun p => decide (firstTickOf s p ≤ t))).map f).flatten := by
  intro l
  induction l with
  | nil => intro acc; simp
  | cons a l ih =>
    intro acc
    by_cases h : t < firstTickOf s a
    · have hf : decide (firstTickOf s a ≤ t) = false := by
        simp only [decide_eq_false_iff_not]
        omega
      simp only [List.foldl_cons, if_pos h, List.filter_cons, hf, Bool.false_eq_true,
        if_false]
      exact ih acc
    · have hf : decide (firstTickOf s a ≤ t) = true := by
        simp only [decide_eq_true_eq]
        omega
      simp only [List.foldl_cons, if_neg h, List.filter_cons, hf, if_true]
      rw [ih (acc ++ f a)]
      simp [List.append_assoc]

/-- Sorting commutes with filtering for the peer order. -/
theorem filter_sortPeers (p : String → Bool) (l : List String) :
    (sortPeers l).filter p = sortPeers (l.filter p) := by
  apply List.eq_of_perm_of_sorted (r := fun a b : String => a ≤ b)
  · exact ((List.perm_insertionSort _ l).filter p).trans
      (List.perm_insertionSort _ (l.filter p)).symm
  · exact List.Pairwise.filter p (List.sorted_insertionSort _ l)
  · exact List.sorted_insertionSort _ _

/-- C1: for every tick `T` committed by `commitTick`, the emitted
commit's action vector equals the concatenation, over the peers eligible
for `T` (`firstEligibleTick ≤ T`, the local peer always among the
candidates) in ascending lexicographic peer-id order, of each peer's
buffered proposals for `T` sorted ascending by `seq`; peers with
`firstEligibleTick > T` contribute nothing.  The commit carries
`orderingTick = T` and the incremented height. -/
theorem commitTick_actions_spec (s : OState) (t : Int) :
    (commitTick s t).commit.actions = specCommitActions s t
    ∧ (commitTick s t).commit.orderingTick = t
    ∧ (commitTick s t).commit.seq = s.committedHeight + 1 := by
  refine ⟨?_, rfl, rfl⟩
  show commitActions s t = specCommitActions s t
  unfold commitActions specCommitActions
  rw [foldl_skip_late, List.nil_append, filter_sortPeers]

/-! ## C2: gap-free commits -/

/-- Lemma: `putAction` leaves the commit bookkeeping untouched. -/
theorem putAction_fields (s : OState) (t : Int) (a : String) (q : Nat) (x : SAction) :
    (putAction s t a q x).committedTick = s.committedTick
    ∧ (putAction s t a q x).committedHeight = s.committedHeight
    ∧ (putAction s t a q x).currentTick = s.currentTick := by
  by_cases h : ((s.buffer t a).any fun y => y.1 == q) = true
  · simp [putAction, h]
  · simp [putAction, h]

/-- Lemma: `sealTickIfNeeded` leaves the commit bookkeeping untouched. -/
theorem sealTickIfNeeded_fields (s : OState) (t : Int) :
    ((sealTickIfNeeded s t).1).committedTick = s.committedTick
    ∧ ((sealTickIfNeeded s t).1).committedHeight = s.committedHeight
    ∧ ((sealTickIfNeeded s t).1).currentTick = s.currentTick := by
  unfold sealTickIfNeeded putSeal
  split_ifs <;> exact ⟨rfl, rfl, rfl⟩

/-- The warp seal loop leaves the commit bookkeeping untouched. -/
theorem sealRangeLoop_fields (fuel : Nat) : ∀ (t : Int) (s : OState),
    ((sealRangeLoop fuel t s).1).committedTick = s.committedTick
    ∧ ((sealRangeLoop fuel t s).1).committedHeight = s.committedHeight
    ∧ ((sealRangeLoop fuel t s).1).currentTick = s.currentTick := by
  induction fuel with
  | zero => intro t s; exact ⟨rfl, rfl, rfl⟩
  | succ fuel ih =>
    intro t s
    have h1 := sealTickIfNeeded_fields s t
    have h2 := ih (t + 1) (sealTickIfNeeded s t).1
    exact ⟨h2.1.trans h1.1, h2.2.1.trans h1.2.1, h2.2.2.trans h1.2.2⟩

/-- The tick-advance loop seals but never commits; the current tick only
moves forward. -/
theorem tickAdvanceLoop_fields (fuel : Nat) : ∀ (s : OState),
    ((tickAdvanceLoop fuel s).1).committedTick = s.committedTick
    ∧ ((tickAdvanceLoop fuel s).1).committedHeight = s.committedHeight
    ∧ s.currentTick ≤ ((tickAdvanceLoop fuel s).1).currentTick := by
  induction fuel with
  | zero => intro s; exact ⟨rfl, rfl, le_refl _⟩
  | succ fuel ih =>
    intro s
    have hkey : (tickAdvanceLoop (fuel + 1) s).1
        = (tickAdvanceLoop fuel (if (0:Int) ≤ s.currentTick + 1 - 1 then
            sealTickIfNeeded { s with currentTick := s.currentTick + 1 }
              (s.currentTick + 1 - 1 + s.cfg.inputDelayTicks)
          else ({ s with currentTick := s.currentTick + 1 }, [])).1).1 := rfl
    rw [hkey]
    have hr1 : ((if (0:Int) ≤ s.currentTick + 1 - 1 then
        sealTickIfNeeded { s with currentTick := s.currentTick + 1 }
          (s.currentTick + 1 - 1 + s.cfg.inputDelayTicks)
        else ({ s with currentTick := s.currentTick + 1 }, [])).1.committedTick = s.committedTick)
      ∧ ((if (0:Int) ≤ s.currentTick + 1 - 1 then
        sealTickIfNeeded { s with currentTick := s.currentTick + 1 }
          (s.currentTick + 1 - 1 + s.cfg.inputDelayTicks)
        else ({ s with currentTick := s.currentTick + 1 }, [])).1.committedHeight = s.committedHeight)
      ∧ ((if (0:Int) ≤ s.currentTick + 1 - 1 then
        sealTickIfNeeded { s with currentTick := s.currentTick + 1 }
          (s.currentTick + 1 - 1 + s.cfg.inputDelayTicks)
        else ({ s with currentTick := s.currentTick + 1 }, [])).1.currentTick = s.currentTick + 1) := by
      split_ifs with hb
      · exact sealTickIfNeeded_fields _ _
      · exact ⟨rfl, rfl, rfl⟩
    have h2 := ih (if (0:Int) ≤ s.currentTick + 1 - 1 then
        sealTickIfNeeded { s with currentTick := s.currentTick + 1 }
          (s.currentTick + 1 - 1 + s.cfg.inputDelayTicks)
        else ({ s with currentTick := s.currentTick + 1 }, [])).1
    refine ⟨h2.1.trans hr1.1, h2.2.1.trans hr1.2.1, ?_⟩
    have h3 := h2.2.2
    rw [hr1.2.2] at h3
    omega

/-- The state after `commitTick`: the height is incremented, the
committed and current ticks are untouched. -/
theorem commitTick_state_fields (s : OState) (t : Int) :
    (commitTick s t).state.committedHeight = s.committedHeight + 1
    ∧ (commitTick s t).state.committedTick = s.committedTick
    ∧ (commitTick s t).state.currentTick = s.currentTick :=
  ⟨rfl, rfl, rfl⟩

/-- A gap-free chain stays gap-free when its starting tick bound is
lowered. -/
theorem chainOK_weaken {t t2 : Int} {h : Nat} {cs : List Commit}
    (hle : t ≤ t2) (hc : chainOK t2 h cs) : chainOK t h cs := by
  cases cs with
  | nil => trivial
  | cons c cs =>
    obtain ⟨h1, h2, h3⟩ := hc
    exact ⟨h1, lt_of_le_of_lt hle h2, h3⟩

/-- Every commit of a gap-free chain sits strictly above the starting
tick bound. -/
theorem chainOK_lt {cs : List Commit} : ∀ {t : Int} {h : Nat}, chainOK t h cs →
    ∀ c ∈ cs, t < c.orderingTick := by
  induction cs with
  | nil => intro t h _ c hc; cases hc
  | cons c cs ih =>
    intro t h hch c2 hc2
    obtain ⟨h1, h2, h3⟩ := hch
    rcases List.mem_cons.mp hc2 with rfl | hmem
    · exact h2
    · exact lt_trans h2 (ih h3 c2 hmem)

/-- Gap-free chains compose. -/
theorem chainOK_append {cs1 : List Commit} : ∀ {t t1 : Int} {h : Nat} {cs2 : List Commit},
    chainOK t h cs1 → chainOK t1 (h + cs1.length) cs2 →
    (∀ c ∈ cs1, c.orderingTick ≤ t1) → t ≤ t1 →
    chainOK t h (cs1 ++ cs2) := by
  induction cs1 with
  | nil =>
    intro t t1 h cs2 _ h2 _ ht
    simpa using chainOK_weaken ht (by simpa using h2)
  | cons c cs1 ih =>
    intro t t1 h cs2 h1 h2 hb ht
    obtain ⟨e1, e2, e3⟩ := h1
    refine ⟨e1, e2, ?_⟩
    have h2n : chainOK t1 ((h + 1) + cs1.length) cs2 := by
      have : h + (c :: cs1).length = (h + 1) + cs1.length := by
        simp [List.length_cons]
        omega
      rwa [this] at h2
    exact ih e3 h2n (fun c2 hc2 => hb c2 (List.mem_cons_of_mem _ hc2))
      (hb c (List.mem_cons_self _ _))

/-- The heights of a gap-free chain are consecutive from `h + 1`. -/
theorem chainOK_map_seq {cs : List Commit} : ∀ {t : Int} {h : Nat}, chainOK t h cs →
    cs.map Commit.seq = List.range' (h + 1) cs.length := by
  induction cs with
  | nil => intro t h _; rfl
  | cons c cs ih =>
    intro t h hch
    obtain ⟨h1, _, h3⟩ := hch
    simp only [List.map_cons, List.length_cons, List.range'_succ, h1]
    rw [ih h3]

/-- The ordering ticks of a gap-free chain strictly increase. -/
theorem chainOK_pairwise {cs : List Commit} : ∀ {t : Int} {h : Nat}, chainOK t h cs →
    cs.Pairwise (fun a b => a.orderingTick < b.orderingTick) := by
  induction cs with
  | nil => intro t h _; exact List.Pairwise.nil
  | cons c cs ih =>
    intro t h hch
    obtain ⟨_, _, h3⟩ := hch
    exact List.Pairwise.cons (fun c2 hc2 => chainOK_lt h3 c2 hc2) (ih h3)

/-- The commit loop emits a gap-free chain starting at the entry state's
committed tick and height, adds its length to the height counter, only
moves the committed tick forward, and keeps every committed tick at or
below the final committed tick. -/
theorem tryCommitLoop_spec (fuel : Nat) : ∀ (s : OState),
    chainOK s.committedTick s.committedHeight (tryCommitLoop fuel s).commits
    ∧ (tryCommitLoop fuel s).state.committedHeight
      = s.committedHeight + (tryCommitLoop fuel s).commits.length
    ∧ s.committedTick ≤ (tryCommitLoop fuel s).state.committedTick
    ∧ (∀ c ∈ (tryCommitLoop fuel s).commits,
        c.orderingTick ≤ (tryCommitLoop fuel s).state.committedTick) := by
  induction fuel with
  | zero =>
    intro s
    refine ⟨trivial, rfl, le_refl _, ?_⟩
    intro c hc
    cases hc
  | succ fuel ih =>
    intro s
    by_cases hcc : canCommitTick s (s.committedTick + 1) = true
    · obtain ⟨ih1, ih2, ih3, ih4⟩ :=
        ih (withCommittedTick (commitTick s (s.committedTick + 1)).state (s.committedTick + 1))
      have hct : (withCommittedTick (commitTick s (s.committedTick + 1)).state
          (s.committedTick + 1)).committedTick = s.committedTick + 1 := rfl
      have hch : (withCommittedTick (commitTick s (s.committedTick + 1)).state
          (s.committedTick + 1)).committedHeight = s.committedHeight + 1 := rfl
      rw [hct, hch] at ih1
      rw [hch] at ih2
      rw [hct] at ih3
      have he : (commitTick s (s.committedTick + 1)).commit.orderingTick
          = s.committedTick + 1 := rfl
      have hsq : (commitTick s (s.committedTick + 1)).commit.seq
          = s.committedHeight + 1 := rfl
      have hunf : tryCommitLoop (fuel + 1) s
          = ⟨(tryCommitLoop fuel (withCommittedTick (commitTick s (s.committedTick + 1)).state
                (s.committedTick + 1))).state,
             (commitTick s (s.committedTick + 1)).msg ::
               (tryCommitLoop fuel (withCommittedTick (commitTick s (s.committedTick + 1)).state
                 (s.committedTick + 1))).outbound,
             (commitTick s (s.committedTick + 1)).commit ::
               (tryCommitLoop fuel (withCommittedTick (commitTick s (s.committedTick + 1)).state
                 (s.committedTick + 1))).commits⟩ := by
        simp only [tryCommitLoop]
        rw [if_pos hcc]
      have hstate : (tryCommitLoop (fuel + 1) s).state
          = (tryCommitLoop fuel (withCommittedTick (commitTick s (s.committedTick + 1)).state
              (s.committedTick + 1))).state := by
        rw [hunf]
      have hcmts : (tryCommitLoop (fuel + 1) s).commits
          = (commitTick s (s.committedTick + 1)).commit ::
              (tryCommitLoop fuel (withCommittedTick (commitTick s (s.committedTick + 1)).state
                (s.committedTick + 1))).commits := by
        rw [hunf]
      rw [hstate, hcmts]
      refine ⟨⟨hsq, ?_, ?_⟩, ?_, ?_, ?_⟩
      · rw [he]
        omega
      · rw [he]
        exact ih1
      · simp only [List.length_cons]
        omega
      · omega
      · intro c hc
        rcases List.mem_cons.mp hc with rfl | hmem
        · rw [he]
          omega
        · exact ih4 c hmem
    · have hunf : tryCommitLoop (fuel + 1) s = ⟨s, [], []⟩ := by
        simp only [tryCommitLoop]
        rw [if_neg hcc]
      rw [hunf]
      refine ⟨trivial, rfl, le_refl _, ?_⟩
      intro c hc
      cases hc

/-- Commit-bookkeeping facts for `tryCommitUpTo`. -/
theorem tryCommitUpTo_spec (s : OState) (m : Int) :
    chainOK s.committedTick s.committedHeight (tryCommitUpTo s m).commits
    ∧ (tryCommitUpTo s m).state.committedHeight
      = s.committedHeight + (tryCommitUpTo s m).commits.length
    ∧ s.committedTick ≤ (tryCommitUpTo s m).state.committedTick
    ∧ ∀ c ∈ (tryCommitUpTo s m).commits,
        c.orderingTick ≤ (tryCommitUpTo s m).state.committedTick :=
  tryCommitLoop_spec ((m - s.committedTick).toNat) s

/-- A commit attempt from a state whose committed tick is at least, and
height equal to, the pre-state's satisfies the step contract relative to
the pre-state. -/
theorem tryCommitUpTo_spec_ge {s s1 : OState} (m : Int)
    (h1 : s.committedTick ≤ s1.committedTick)
    (h2 : s1.committedHeight = s.committedHeight) :
    chainOK s.committedTick s.committedHeight (tryCommitUpTo s1 m).commits
    ∧ (tryCommitUpTo s1 m).state.committedHeight
      = s.committedHeight + (tryCommitUpTo s1 m).commits.length
    ∧ s.committedTick ≤ (tryCommitUpTo s1 m).state.committedTick
    ∧ ∀ c ∈ (tryCommitUpTo s1 m).commits,
        c.orderingTick ≤ (tryCommitUpTo s1 m).state.committedTick := by
  obtain ⟨c1, c2, c3, c4⟩ := tryCommitUpTo_spec s1 m
  rw [h2] at c1 c2
  exact ⟨chainOK_weaken h1 c1, c2, le_trans h1 c3, c4⟩

/-- A step that emits no commits and keeps the bookkeeping satisfies the
step contract. -/
theorem noCommit_spec {s : OState} {o : StepOut}
    (hc : o.commits = []) (h1 : o.state.committedTick = s.committedTick)
    (h2 : o.state.committedHeight = s.committedHeight) :
    chainOK s.committedTick s.committedHeight o.commits
    ∧ o.state.committedHeight = s.committedHeight + o.commits.length
    ∧ s.committedTick ≤ o.state.committedTick
    ∧ ∀ c ∈ o.commits, c.orderingTick ≤ o.state.committedTick := by
  refine ⟨?_, ?_, ?_, ?_⟩
  · rw [hc]
    trivial
  · rw [hc, h2]
    simp
  · rw [h1]
  · intro c hcm
    rw [hc] at hcm
    cases hcm

/-- Lemma: `putSeal` leaves the commit bookkeeping untouched. -/
theorem putSeal_fields (s : OState) (t : Int) (a : String) (q : Int) :
    (putSeal s t a q).committedTick = s.committedTick
    ∧ (putSeal s t a q).committedHeight = s.committedHeight :=
  ⟨rfl, rfl⟩

/-- Lemma: `warpState` leaves the commit bookkeeping untouched. -/
theorem warpState_fields (s : OState) (tk nowMs : Int) :
    (warpState s tk nowMs).committedTick = s.committedTick
    ∧ (warpState s tk nowMs).committedHeight = s.committedHeight :=
  ⟨rfl, rfl⟩

/-- Every single event satisfies the step contract: the commits it emits
form a gap-free chain continuing the state's height counter, and the
committed tick never moves backwards. -/
theorem step_spec (s : OState) (e : OEvent) :
    chainOK s.committedTick s.committedHeight (step s e).commits
    ∧ (step s e).state.committedHeight = s.committedHeight + (step s e).commits.length
    ∧ s.committedTick ≤ (step s e).state.committedTick
    ∧ ∀ c ∈ (step s e).commits, c.orderingTick ≤ (step s e).state.committedTick := by
  cases e with
  | localAction payload nowMs =>
    simp only [step, onLocalAction]
    split_ifs with hb
    · exact noCommit_spec rfl rfl rfl
    · exact noCommit_spec rfl ((putAction_fields _ _ _ _ _).1.trans rfl)
        ((putAction_fields _ _ _ _ _).2.1.trans rfl)
  | clockTick nowMs =>
    simp only [step, tick]
    by_cases h0 : s.currentTick = -1
    · rw [if_pos h0]
      refine tryCommitUpTo_spec_ge _ ?_ ?_
      · simp only [withCommittedTick]
        split_ifs with hs
        · rw [(sealTickIfNeeded_fields _ _).1]
          exact le_sup_left
        · exact le_sup_left
      · simp only [withCommittedTick]
        split_ifs with hs
        · exact (sealTickIfNeeded_fields _ _).2.1
        · rfl
    · rw [if_neg h0]
      by_cases h1 : computeTick s.cfg nowMs ≤ s.currentTick
      · rw [if_pos h1]
        exact tryCommitUpTo_spec_ge _ (le_refl _) rfl
      · rw [if_neg h1]
        refine tryCommitUpTo_spec_ge _ ?_ ?_
        · rw [(tickAdvanceLoop_fields _ _).1]
        · exact (tickAdvanceLoop_fields _ _).2.1
  | recv f m nowMs =>
    cases m with
    | propose roomId peerId tk sq payload =>
      simp only [step, handleMessage]
      split_ifs with hg1 hg2 hg3
      · exact noCommit_spec rfl rfl rfl
      · exact noCommit_spec rfl rfl rfl
      · exact noCommit_spec rfl rfl rfl
      · exact noCommit_spec rfl (putAction_fields _ _ _ _ _).1 (putAction_fields _ _ _ _ _).2.1
    | sealMsg roomId peerId tk lastSeq =>
      simp only [step, handleMessage]
      split_ifs with hg1 hg2 hg3
      · exact noCommit_spec rfl rfl rfl
      · exact noCommit_spec rfl rfl rfl
      · exact noCommit_spec rfl rfl rfl
      · exact tryCommitUpTo_spec_ge _ (le_of_eq (putSeal_fields _ _ _ _).1.symm)
          (putSeal_fields _ _ _ _).2
    | commitMsg roomId tk h acts =>
      exact noCommit_spec rfl rfl rfl
    | syncClock roomId peerId tk =>
      simp only [step, handleMessage]
      split_ifs with hg1 hg2 hg3
      · exact noCommit_spec rfl rfl rfl
      · exact noCommit_spec rfl rfl rfl
      · refine tryCommitUpTo_spec_ge _ ?_ ?_
        · rw [(sealRangeLoop_fields _ _ _).1, (warpState_fields _ _ _).1]
        · exact ((sealRangeLoop_fields _ _ _).2.1).trans (warpState_fields _ _ _).2
      · exact noCommit_spec rfl rfl rfl
  | peer ev nowMs =>
    cases ev with
    | connected p =>
      simp only [step, handlePeerEvent]
      split_ifs with hin
      · exact ⟨trivial, rfl, le_refl _, fun c hc => absurd hc (List.not_mem_nil c)⟩
      · exact ⟨trivial, rfl, le_refl _, fun c hc => absurd hc (List.not_mem_nil c)⟩
    | disconnected p =>
      exact noCommit_spec rfl rfl rfl

/-- The run-level contract: over any event sequence, the emitted commits
form a gap-free chain continuing the starting state's committed tick and
height. -/
theorem run_spec (evs : List OEvent) : ∀ (s : OState),
    chainOK s.committedTick s.committedHeight (run s evs).2
    ∧ (run s evs).1.committedHeight = s.committedHeight + (run s evs).2.length
    ∧ s.committedTick ≤ (run s evs).1.committedTick
    ∧ ∀ c ∈ (run s evs).2, c.orderingTick ≤ (run s evs).1.committedTick := by
  induction evs with
  | nil =>
    intro s
    refine ⟨trivial, rfl, le_refl _, ?_⟩
    intro c hc
    cases hc
  | cons e es ih =>
    intro s
    obtain ⟨s1, s2, s3, s4⟩ := step_spec s e
    obtain ⟨r1, r2, r3, r4⟩ := ih (step s e).state
    have hunf : run s (e :: es)
        = ((run (step s e).state es).1, (step s e).commits ++ (run (step s e).state es).2) := rfl
    rw [hunf]
    refine ⟨?_, ?_, ?_, ?_⟩
    · refine chainOK_append s1 ?_ ?_ s3
      · rw [← s2]
        exact r1
      · exact s4
    · simp only [List.length_append]
      omega
    · exact le_trans s3 r3
    · intro c hc
      rcases List.mem_append.mp hc with hc1 | hc2
      · exact le_trans (s4 c hc1) r3
      · exact r4 c hc2

/-- C2: across any run of `LockstepOrdering` from its constructor state,
the emitted commit sequence is gap-free: the heights (`Commit.seq`) are
exactly 1, 2, …, n in order, and the ordering ticks strictly increase
(so no tick is ever committed twice). -/
theorem run_commits_gap_free (cfg : OrderingConfig) (selfId : String)
    (peers0 : List String) (evs : List OEvent) :
    (run (initState cfg selfId peers0) evs).2.map Commit.seq
      = List.range' 1 (run (initState cfg selfId peers0) evs).2.length
    ∧ (run (initState cfg selfId peers0) evs).2.Pairwise
        (fun a b => a.orderingTick < b.orderingTick) := by
  obtain ⟨h1, _, _, _⟩ := run_spec evs (initState cfg selfId peers0)
  have hh : (initState cfg selfId peers0).committedHeight = 0 := rfl
  rw [hh] at h1
  exact ⟨chainOK_map_seq h1, chainOK_pairwise h1⟩

/-! ## C3: barrier soundness -/

/-- A true `canCommitTick` check is exactly the claim's seal condition. -/
theorem canCommitTick_eligibleSealed {s : OState} {t : Int}
    (h : canCommitTick s t = true) : eligibleSealed s t := by
  intro p hp hft
  have hall := (List.all_eq_true.mp h) p hp
  rw [Bool.or_eq_true] at hall
  rcases hall with h1 | h2
  · exact absurd (of_decide_eq_true h1) (not_lt.mpr hft)
  · exact h2

/-- Every commit the loop emits satisfies the seal barrier with respect
to the loop's entry state: commits are emitted only for ticks whose
eligible peers (at the entry state) all have recorded seals. -/
theorem tryCommitLoop_eligibleSealed (fuel : Nat) : ∀ (s : OState),
    ∀ c ∈ (tryCommitLoop fuel s).commits, eligibleSealed s c.orderingTick := by
  induction fuel with
  | zero =>
    intro s c hc
    cases hc
  | succ fuel ih =>
    intro s c hc
    by_cases hcc : canCommitTick s (s.committedTick + 1) = true
    · have hcmts : (tryCommitLoop (fuel + 1) s).commits
          = (commitTick s (s.committedTick + 1)).commit ::
              (tryCommitLoop fuel (withCommittedTick (commitTick s (s.committedTick + 1)).state
                (s.committedTick + 1))).commits := by
        simp only [tryCommitLoop]
        rw [if_pos hcc]
      rw [hcmts] at hc
      rcases List.mem_cons.mp hc with rfl | hmem
      · have he : (commitTick s (s.committedTick + 1)).commit.orderingTick
            = s.committedTick + 1 := rfl
        rw [he]
        exact canCommitTick_eligibleSealed hcc
      · have h1 := ih (withCommittedTick (commitTick s (s.committedTick + 1)).state
          (s.committedTick + 1)) c hmem
        have h2 := chainOK_lt (tryCommitLoop_spec fuel
          (withCommittedTick (commitTick s (s.committedTick + 1)).state
            (s.committedTick + 1))).1 c hmem
        have hct : (withCommittedTick (commitTick s (s.committedTick + 1)).state
            (s.committedTick + 1)).committedTick = s.committedTick + 1 := rfl
        rw [hct] at h2
        have hne : c.orderingTick ≠ s.committedTick + 1 := by omega
        intro p hp hft
        have hseals : (withCommittedTick (commitTick s (s.committedTick + 1)).state
            (s.committedTick + 1)).seals c.orderingTick p = s.seals c.orderingTick p := by
          show (if c.orderingTick = s.committedTick + 1 then none
            else s.seals c.orderingTick p) = s.seals c.orderingTick p
          rw [if_neg hne]
        have := h1 p hp hft
        rw [hseals] at this
        exact this
    · have hcmts : (tryCommitLoop (fuel + 1) s).commits = [] := by
        simp only [tryCommitLoop]
        rw [if_neg hcc]
      rw [hcmts] at hc
      cases hc

/-- C3: `LockstepOrdering` never emits a commit for a tick `T` unless
every peer of the current membership set plus the local peer whose
`firstEligibleTick` is at most `T` has a recorded seal for `(T, peer)`;
peers with `firstEligibleTick > T` are not required.  (The local seal is
recorded synchronously inside `sealTickIfNeeded` before the broadcast,
and all commit emission goes through `tryCommitUpTo`.) -/
theorem tryCommitUpTo_barrier (s : OState) (m : Int) :
    ∀ c ∈ (tryCommitUpTo s m).commits, eligibleSealed s c.orderingTick :=
  tryCommitLoop_eligibleSealed _ s

/-- Witness for the barrier theorem: in `sampleSealed`, tick 1 is
committed and its only eligible peer has a recorded seal. -/
theorem tryCommitUpTo_barrier_witness :
    (⟨1, [], 1⟩ : Commit) ∈ (tryCommitUpTo sampleSealed 1).commits
    ∧ eligibleSealed sampleSealed 1 :=
  ⟨by decide, tryCommitUpTo_barrier sampleSealed 1 ⟨1, [], 1⟩ (by decide)⟩

/-! ## C10: monotonicity of the public operations -/

/-- The commit loop never touches the current tick. -/
theorem tryCommitLoop_currentTick (fuel : Nat) : ∀ (s : OState),
    (tryCommitLoop fuel s).state.currentTick = s.currentTick := by
  induction fuel with
  | zero => intro s; rfl
  | succ fuel ih =>
    intro s
    by_cases hcc : canCommitTick s (s.committedTick + 1) = true
    · have hstate : (tryCommitLoop (fuel + 1) s).state
          = (tryCommitLoop fuel (withCommittedTick (commitTick s (s.committedTick + 1)).state
              (s.committedTick + 1))).state := by
        simp only [tryCommitLoop]
        rw [if_pos hcc]
      rw [hstate, ih]
      rfl
    · have hstate : (tryCommitLoop (fuel + 1) s).state = s := by
        simp only [tryCommitLoop]
        rw [if_neg hcc]
      rw [hstate]

/-- Lemma: `tryCommitUpTo` never touches the current tick. -/
theorem tryCommitUpTo_currentTick (s : OState) (m : Int) :
    (tryCommitUpTo s m).state.currentTick = s.currentTick :=
  tryCommitLoop_currentTick _ s

/-- Lemma: `computeTick` never returns a negative tick (for a positive tick
length). -/
theorem computeTick_nonneg (cfg : OrderingConfig) (nowMs : Int) (h : 0 < cfg.tickMs) :
    0 ≤ computeTick cfg nowMs := by
  simp only [computeTick]
  split_ifs with hd
  · exact le_refl 0
  · exact Int.ediv_nonneg (by omega) (by omega)

/-- Lemma: `tick` never moves the current tick backwards. -/
theorem tick_currentTick_mono (s : OState) (nowMs : Int) (htick : 0 < s.cfg.tickMs) :
    s.currentTick ≤ (tick s nowMs).state.currentTick := by
  have hnn := computeTick_nonneg s.cfg nowMs htick
  simp only [tick]
  by_cases h0 : s.currentTick = -1
  · rw [if_pos h0]
    refine le_trans ?_ (le_of_eq (tryCommitUpTo_currentTick _ _).symm)
    simp only [withCommittedTick]
    split_ifs with hb
    · rw [(sealTickIfNeeded_fields _ _).2.2]
      calc s.currentTick = -1 := h0
        _ ≤ computeTick s.cfg nowMs := by omega
        _ = ({ s with currentTick := computeTick s.cfg nowMs } : OState).currentTick := rfl
    · calc s.currentTick = -1 := h0
        _ ≤ computeTick s.cfg nowMs := by omega
        _ = ({ s with currentTick := computeTick s.cfg nowMs } : OState).currentTick := rfl
  · rw [if_neg h0]
    by_cases h1 : computeTick s.cfg nowMs ≤ s.currentTick
    · rw [if_pos h1, tryCommitUpTo_currentTick]
    · rw [if_neg h1]
      refine le_trans ?_ (le_of_eq (tryCommitUpTo_currentTick _ _).symm)
      exact (tickAdvanceLoop_fields _ _).2.2

/-- C10: `currentTick` and `committedTick` are non-decreasing across the
public mutating operations (`tick`, `onLocalAction`); in particular a
`tick(nowMs)` whose wall clock maps to a tick at or below `currentTick`
(a stalled or regressing clock) leaves the state exactly as
`tryCommitUpTo` leaves it—`currentTick` unchanged, only further commits
attempted—so a regressing clock can never roll the ordering back. -/
theorem public_ops_monotone (s : OState) (payload : Nat) (nowMs : Int)
    (htick : 0 < s.cfg.tickMs) :
    (s.currentTick ≤ (tick s nowMs).state.currentTick
      ∧ s.committedTick ≤ (tick s nowMs).state.committedTick)
    ∧ ((onLocalAction s payload nowMs).state.currentTick = s.currentTick
      ∧ (onLocalAction s payload nowMs).state.committedTick = s.committedTick)
    ∧ (computeTick s.cfg nowMs ≤ s.currentTick →
        tick s nowMs = tryCommitUpTo s (maxCommittableTick s)) := by
  refine ⟨⟨tick_currentTick_mono s nowMs htick,
    (step_spec s (OEvent.clockTick nowMs)).2.2.1⟩, ⟨?_, ?_⟩, ?_⟩
  · simp only [onLocalAction]
    split_ifs with hb
    · rfl
    · exact (putAction_fields _ _ _ _ _).2.2.trans rfl
  · simp only [onLocalAction]
    split_ifs with hb
    · rfl
    · exact (putAction_fields _ _ _ _ _).1.trans rfl
  · intro hle
    simp only [tick]
    by_cases h0 : s.currentTick = -1
    · exfalso
      have hnn := computeTick_nonneg s.cfg nowMs htick
      rw [h0] at hle
      omega
    · rw [if_neg h0, if_pos hle]

/-- Witness for the monotonicity theorem at a concrete state and time. -/
theorem public_ops_monotone_witness :
    (sampleDrop.currentTick ≤ (tick sampleDrop 430).state.currentTick
      ∧ sampleDrop.committedTick ≤ (tick sampleDrop 430).state.committedTick)
    ∧ ((onLocalAction sampleDrop 7 430).state.currentTick = sampleDrop.currentTick
      ∧ (onLocalAction sampleDrop 7 430).state.committedTick = sampleDrop.committedTick)
    ∧ (computeTick sampleDrop.cfg 430 ≤ sampleDrop.currentTick →
        tick sampleDrop 430 = tryCommitUpTo sampleDrop (maxCommittableTick sampleDrop)) :=
  public_ops_monotone sampleDrop 7 430 (by decide)

/-! ## C7: the input horizon of onLocalAction -/

/-- C7: `onLocalAction(payload, nowMs)` computes
`targetTick = computeTick(nowMs) + inputDelayTicks`; when
`targetTick ≤ committedTick` the call is a complete no-op (no buffering,
no seq consumed, no broadcast, state untouched); otherwise it buffers the
action under the local peer at the next per-tick seq (`localSeqByTick`
defaulting to 0) and broadcasts exactly one `ACTION_PROPOSE`. -/
theorem onLocalAction_spec (s : OState) (payload : Nat) (nowMs : Int) :
    (computeTick s.cfg nowMs + s.cfg.inputDelayTicks ≤ s.committedTick →
      onLocalAction s payload nowMs = ⟨s, [], []⟩)
    ∧ (s.committedTick < computeTick s.cfg nowMs + s.cfg.inputDelayTicks →
      (∀ e ∈ s.buffer (computeTick s.cfg nowMs + s.cfg.inputDelayTicks) s.selfId,
          e.1 ≠ (s.localSeqByTick (computeTick s.cfg nowMs + s.cfg.inputDelayTicks)).getD 0) →
      ((onLocalAction s payload nowMs).state.buffer
          (computeTick s.cfg nowMs + s.cfg.inputDelayTicks) s.selfId
        = s.buffer (computeTick s.cfg nowMs + s.cfg.inputDelayTicks) s.selfId
          ++ [((s.localSeqByTick (computeTick s.cfg nowMs + s.cfg.inputDelayTicks)).getD 0,
              ⟨s.selfId, payload⟩)]
      ∧ (onLocalAction s payload nowMs).state.localSeqByTick
          (computeTick s.cfg nowMs + s.cfg.inputDelayTicks)
        = some ((s.localSeqByTick (computeTick s.cfg nowMs + s.cfg.inputDelayTicks)).getD 0 + 1)
      ∧ (onLocalAction s payload nowMs).outbound
        = [NodeMsg.propose s.cfg.roomId s.selfId
            (computeTick s.cfg nowMs + s.cfg.inputDelayTicks)
            ((s.localSeqByTick (computeTick s.cfg nowMs + s.cfg.inputDelayTicks)).getD 0) payload]
      ∧ (onLocalAction s payload nowMs).commits = [])) := by
  constructor
  · intro h
    simp only [onLocalAction]
    rw [if_pos h]
  · intro h hno
    have hany : ((s.buffer (computeTick s.cfg nowMs + s.cfg.inputDelayTicks) s.selfId).any
        (fun x => x.1 == (s.localSeqByTick
          (computeTick s.cfg nowMs + s.cfg.inputDelayTicks)).getD 0)) = false := by
      rw [List.any_eq_false]
      intro x hx
      simp only [beq_iff_eq]
      exact hno x hx
    simp only [onLocalAction]
    rw [if_neg (not_le.mpr h)]
    refine ⟨?_, ?_, rfl, rfl⟩
    · simp [putAction, hany]
    · simp [putAction, hany]

/-- Witness for the input horizon: a drop at a concrete state far behind
the committed tick, and a successful buffering from the constructor
state. -/
theorem onLocalAction_spec_witness :
    onLocalAction sampleDrop 7 123 = ⟨sampleDrop, [], []⟩
    ∧ ((onLocalAction (initState ⟨0, 100, 1, "R"⟩ "A" ["A"]) 7 0).state.buffer 1 "A"
        = [(0, ⟨"A", 7⟩)]
      ∧ (onLocalAction (initState ⟨0, 100, 1, "R"⟩ "A" ["A"]) 7 0).state.localSeqByTick 1
        = some 1
      ∧ (onLocalAction (initState ⟨0, 100, 1, "R"⟩ "A" ["A"]) 7 0).outbound
        = [NodeMsg.propose "R" "A" 1 0 7]
      ∧ (onLocalAction (initState ⟨0, 100, 1, "R"⟩ "A" ["A"]) 7 0).commits = []) := by
  constructor
  · exact (onLocalAction_spec sampleDrop 7 123).1 (by decide)
  · exact (onLocalAction_spec (initState ⟨0, 100, 1, "R"⟩ "A" ["A"]) 7 0).2
      (by decide) (by decide)

/-! ## C6: the tick clock -/

/-- Counterexample to the claimed `-1` before-start value: with
`t0Ms = 100`, at `nowMs = 0` (before start) `computeTick` returns 0,
not `-1`. -/
theorem computeTick_before_start_counterexample :
    (0 : Int) < (⟨100, 50, 1, "R"⟩ : OrderingConfig).t0Ms
    ∧ computeTick ⟨100, 50, 1, "R"⟩ 0 = 0
    ∧ computeTick ⟨100, 50, 1, "R"⟩ 0 ≠ -1 := by
  refine ⟨by decide, rfl, by decide⟩

/-- C6 (amended): `computeTick` clamps to 0 (not `-1`) when
`nowMs < t0Ms`; otherwise it returns the floor of
`(nowMs − t0Ms) / tickMs`, characterized by
`tickMs·q ≤ nowMs − t0Ms < tickMs·(q+1)`. -/
theorem computeTick_spec (cfg : OrderingConfig) (nowMs : Int) (htick : 0 < cfg.tickMs) :
    (nowMs < cfg.t0Ms → computeTick cfg nowMs = 0)
    ∧ (cfg.t0Ms ≤ nowMs →
        cfg.tickMs * computeTick cfg nowMs ≤ nowMs - cfg.t0Ms
        ∧ nowMs - cfg.t0Ms < cfg.tickMs * (computeTick cfg nowMs + 1)) := by
  constructor
  · intro h
    unfold computeTick
    rw [if_pos (by omega)]
  · intro h
    unfold computeTick
    rw [if_neg (by omega)]
    have hd := Int.ediv_add_emod (nowMs - cfg.t0Ms) cfg.tickMs
    have hr1 := Int.emod_nonneg (nowMs - cfg.t0Ms) (ne_of_gt htick)
    have hr2 := Int.emod_lt_of_pos (nowMs - cfg.t0Ms) htick
    constructor
    · nlinarith [hd, hr1]
    · nlinarith [hd, hr2]

/-- Witness for the tick clock: before start it reads 0; at 175 ms with
a 50 ms tick starting at 100 ms it reads floor(75/50) = 1, inside the
floor bounds. -/
theorem computeTick_spec_witness :
    computeTick ⟨100, 50, 1, "R"⟩ 60 = 0
    ∧ ((50 : Int) * computeTick ⟨100, 50, 1, "R"⟩ 175 ≤ 175 - 100
      ∧ (175 : Int) - 100 < 50 * (computeTick ⟨100, 50, 1, "R"⟩ 175 + 1)) :=
  ⟨(computeTick_spec ⟨100, 50, 1, "R"⟩ 60 (by decide)).1 (by decide),
   (computeTick_spec ⟨100, 50, 1, "R"⟩ 175 (by decide)).2 (by decide)⟩

/-! ## C4: the commit queue on a failed append -/

/-- C4 (evaluation at the failing input): when the first queued commit's
append fails (height 2 against an empty log), the failing commit is not
applied, but the queue is not halted—the catch handler merely logs—and
the next queued commit (height 1) is appended to the log and applied to
the engine state. -/
theorem gameNode_queue_continues_after_failure :
    gameNodeProcessQueue (fun (st : List Nat) c => st ++ [c.seq])
      [⟨2, [], 0⟩, ⟨1, [], 0⟩] [] []
      = ([⟨1, [], 0⟩], [1]) := by
  decide

/-! ## C5: scheduler catch-up order -/

/-- Counterexample to the claimed sorted-by-id order: two always-due
schedulers registered as `[schedB, schedA]` are applied in registration
order (`"b"` first), not in lexicographic id order (`"a"` first). -/
theorem applySchedulersCatchUp_order_counterexample :
    (applySchedulersCatchUp [schedB, schedA] "p" 0 1 ([] : List String)).1 = ["b", "a"]
    ∧ catchUpSpecSortedById [schedB, schedA] "p" 0 1 ([] : List String) = ["a", "b"]
    ∧ (applySchedulersCatchUp [schedB, schedA] "p" 0 1 ([] : List String)).1
      ≠ catchUpSpecSortedById [schedB, schedA] "p" 0 1 ([] : List String) := by
  have h1 : (applySchedulersCatchUp [schedB, schedA] "p" 0 1 ([] : List String)).1
      = ["b", "a"] := rfl
  have hba : ¬ ((fun a b : SchedulerM (List String) => a.id ≤ b.id) schedB schedA) := by
    show ¬ (("b" : String) ≤ "a")
    rw [not_le, String.lt_iff_toList_lt]
    decide
  have hsorted : sortSchedulersById [schedB, schedA] = [schedA, schedB] := by
    unfold sortSchedulersById
    simp [List.insertionSort, List.orderedInsert, hba]
  have h2 : catchUpSpecSortedById [schedB, schedA] "p" 0 1 ([] : List String)
      = ["a", "b"] := by
    unfold catchUpSpecSortedById
    rw [hsorted]
    rfl
  refine ⟨h1, h2, ?_⟩
  rw [h1, h2]
  decide

/-- Folding a list with a function that ignores the elements is the
identity. -/
theorem foldl_const {α β : Type} : ∀ (l : List β) (a : α),
    l.foldl (fun a _ => a) a = a := by
  intro l
  induction l with
  | nil => intro a; rfl
  | cons x l ih => intro a; exact ih a

/-- The inner scheduler loop matches the spec-worded inner fold. -/
theorem runSchedulersAtTick_eq_spec {S : Type} (schedulers : List (SchedulerM S))
    (pid : String) (t : Int) (s : S) :
    runSchedulersAtTick schedulers pid t s
      = schedulers.foldl
          (fun s sch =>
            match sch.schedule s with
            | none => s
            | some schedule =>
              if isDue schedule s ⟨pid, t⟩ then (sch.apply s ⟨pid, t⟩).getD s else s)
          s := by
  unfold runSchedulersAtTick
  congr 1

/-- C5 (amended): the scheduler catch-up after a commit visits exactly
the ticks of `(lastSchedulerTick, committedTick]` in increasing order,
applying at each tick every scheduler in registration (array) order—not
sorted by id—whenever its schedule is non-null and `isDue` holds; the
sorted-by-id reading of the claim only agrees when the registration
order is already sorted by id.  Both paths update the catch-up cursor to
`max lastTick committedTick`. -/
theorem applySchedulersCatchUp_spec {S : Type} (schedulers : List (SchedulerM S))
    (playerId : String) (lastTick committedTick : Int) (state : S) :
    (applySchedulersCatchUp schedulers playerId lastTick committedTick state).1
      = catchUpSpec schedulers playerId lastTick committedTick state
    ∧ (applySchedulersCatchUp schedulers playerId lastTick committedTick state).2
      = max lastTick committedTick
    ∧ (List.Sorted (fun a b : SchedulerM S => a.id ≤ b.id) schedulers →
        (applySchedulersCatchUp schedulers playerId lastTick committedTick state).1
          = catchUpSpecSortedById schedulers playerId lastTick committedTick state) := by
  have hmain : (applySchedulersCatchUp schedulers playerId lastTick committedTick state).1
      = catchUpSpec schedulers playerId lastTick committedTick state := by
    unfold applySchedulersCatchUp catchUpSpec
    by_cases he : schedulers.isEmpty
    · rw [if_pos he]
      have hnil : schedulers = [] := List.isEmpty_iff.mp he
      subst hnil
      simp only [List.foldl_nil]
      rw [foldl_const]
    · rw [if_neg he]
      simp only []
      congr 1
  refine ⟨hmain, ?_, ?_⟩
  · unfold applySchedulersCatchUp
    split_ifs <;> rfl
  · intro hsort
    rw [hmain]
    unfold catchUpSpecSortedById
    rw [show sortSchedulersById schedulers = schedulers from
      List.Sorted.insertionSort_eq hsort]

/-- Witness for the catch-up theorem on an already-sorted registration
list. -/
theorem applySchedulersCatchUp_spec_witness :
    ((applySchedulersCatchUp [schedA, schedB] "p" 0 1 ([] : List String)).1
      = catchUpSpec [schedA, schedB] "p" 0 1 ([] : List String)
    ∧ (applySchedulersCatchUp [schedA, schedB] "p" 0 1 ([] : List String)).2 = 1)
    ∧ (applySchedulersCatchUp [schedA, schedB] "p" 0 1 ([] : List String)).1
      = catchUpSpecSortedById [schedA, schedB] "p" 0 1 ([] : List String) := by
  have h := applySchedulersCatchUp_spec [schedA, schedB] "p" 0 1 ([] : List String)
  refine ⟨⟨h.1, h.2.1.trans (by decide)⟩, h.2.2 ?_⟩
  have hab : (fun a b : SchedulerM (List String) => a.id ≤ b.id) schedA schedB := by
    show ("a" : String) ≤ "b"
    refine le_of_lt ?_
    rw [String.lt_iff_toList_lt]
    decide
  refine List.Pairwise.cons ?_ (List.Pairwise.cons ?_ List.Pairwise.nil)
  · intro b hb
    rw [List.mem_singleton] at hb
    subst hb
    exact hab
  · intro b hb
    exact absurd hb (List.not_mem_nil b)

/-! ## C8: the action-log append contract -/

/-- Counterexample to the claim that the height-mismatch contract holds
for both stores: `IndexedDbLogStore.append` performs no height check, so
appending height 5 to an empty store (latest height 0) succeeds instead
of failing. -/
theorem idbAppend_no_height_check_counterexample :
    idbLatestHeight [] = 0
    ∧ (⟨5, [], 0⟩ : Commit).seq ≠ idbLatestHeight [] + 1
    ∧ idbAppend [] ⟨5, [], 0⟩ = Except.ok [⟨5, [], 0⟩] := by
  refine ⟨rfl, by decide, rfl⟩

/-- C8 (amended): `MemoryLogStore.append` succeeds exactly when the
commit's height is `latestHeight + 1`, on failure the stored log is
untouched (the success case appends exactly one commit at the end), and
successful appends preserve gap-freeness (heights 1, 2, …, n);
`IndexedDbLogStore.append` makes no height check and always upserts. -/
theorem log_append_contract :
    (∀ (commits : List Commit) (c : Commit),
        (∃ l, memAppend commits c = Except.ok l) ↔ c.seq = memLatestHeight commits + 1)
    ∧ (∀ (commits : List Commit) (c : Commit) (l : List Commit),
        memAppend commits c = Except.ok l → l = commits ++ [c])
    ∧ (∀ (commits : List Commit) (c : Commit) (l : List Commit),
        GapFree commits → memAppend commits c = Except.ok l → GapFree l)
    ∧ (∀ (store : List Commit) (c : Commit), idbAppend store c = Except.ok (idbPut store c)) := by
  have happ : ∀ (commits : List Commit) (c : Commit) (l : List Commit),
      memAppend commits c = Except.ok l → l = commits ++ [c] ∧ c.seq = commits.length + 1 := by
    intro commits c l h
    unfold memAppend at h
    by_cases hne : c.seq ≠ memLatestHeight commits + 1
    · rw [if_pos hne] at h
      cases h
    · rw [if_neg hne] at h
      injection h with h2
      refine ⟨h2.symm, ?_⟩
      have h3 := not_ne_iff.mp hne
      simpa [memLatestHeight] using h3
  refine ⟨?_, ?_, ?_, ?_⟩
  · intro commits c
    constructor
    · intro ⟨l, hl⟩
      exact (happ commits c l hl).2
    · intro hseq
      refine ⟨commits ++ [c], ?_⟩
      unfold memAppend
      rw [if_neg (not_ne_iff.mpr hseq)]
  · intro commits c l h
    exact (happ commits c l h).1
  · intro commits c l hgap h
    obtain ⟨rfl, hseq⟩ := happ commits c l h
    unfold GapFree at hgap ⊢
    rw [List.map_append, List.length_append, hgap]
    simp only [List.map_cons, List.map_nil, List.length_cons, List.length_nil]
    rw [hseq]
    rw [show commits.length + (0 + 1) = commits.length + 1 from rfl]
    rw [List.range'_concat]
    simp [Nat.add_comm]
  · intro store c
    rfl

/-- Witness for the log contract: appending height 1 to the empty log
succeeds, appends exactly that commit, and keeps the log gap-free. -/
theorem log_append_contract_witness :
    (∃ l, memAppend [] ⟨1, [], 5⟩ = Except.ok l)
    ∧ ([⟨1, [], 5⟩] : List Commit) = [] ++ [⟨1, [], 5⟩]
    ∧ GapFree [⟨1, [], 5⟩]
    ∧ idbAppend [] ⟨1, [], 5⟩ = Except.ok (idbPut [] ⟨1, [], 5⟩) := by
  have h := log_append_contract
  refine ⟨(h.1 [] ⟨1, [], 5⟩).mpr (by decide), ?_, ?_, h.2.2.2 [] ⟨1, [], 5⟩⟩
  · exact h.2.1 [] ⟨1, [], 5⟩ [⟨1, [], 5⟩] rfl
  · exact h.2.2.1 [] ⟨1, [], 5⟩ [⟨1, [], 5⟩] (by unfold GapFree; rfl) rfl

end Meshgame
